import Mathlib

/-!
Verification of the SplinterDB-backed persistent trace
(crates/dbsp/src/trace/sdb_persistent/).

The development is a shallow embedding of the Rust sources into Lean.
The generic type parameters of the Rust code are instantiated at
representative totally ordered, losslessly encodable instances:

  B::Key    as Int
  B::Val    as Int
  B::Time   as Nat  (a total order, so the lattice meet is min and
                     less_equal is the usual order)
  B::R      as Int  (weights: add-assign, zero test)

The bincode encoding layer is elided: the merge callback is modelled
directly on the decoded PersistedValue / MergeOp data, and the store
partition is modelled as the association of decoded record keys to
decoded record values.  Rust panics (assert-, unwrap-, todo-failures)
are modelled as None / Except.error results.
-/

namespace SdbPersistent

/-- Key type of the batch (B::Key instantiated at Int). -/
abbrev Key := Int

/-- Value type of the batch (B::Val instantiated at Int). -/
abbrev Val := Int

/-- Timestamp type (B::Time instantiated at Nat, a total order). -/
abbrev Time := Nat

/-- Weight type (B::R instantiated at Int). -/
abbrev Weight := Int

/-- One (Time, Weight) pair of a value's sublist. -/
abbrev TW := Time × Weight

/-- From mod.rs: a single value with many time and weight tuples,
type ValueTimeWeights of V T R is the pair of V and a vector of (T, R). -/
abbrev ValueTimeWeights := Val × List TW

/-- From mod.rs: a collection of values with time and weight tuples; this
is the type persisted in the store under values. -/
abbrev Values := List ValueTimeWeights

/-- Modelled from the spec, section 3 (the enum declaration lives in a part
of trace.rs missing from the sources; its shape is pinned by the spec and by
the constructor uses in sdb_interface.rs): what is physically stored as the
value half of a record, either Values of a value list or Tombstone. -/
inductive PersistedValue where
  | Values : Values → PersistedValue
  | Tombstone : PersistedValue
deriving DecidableEq, Repr

/-- Modelled from the spec, section 3 (declaration missing from the sources,
shape pinned by the spec and by the uses in sdb_interface.rs): what is
written transiently to request a combination, either Insert of new values
or RecedeTo of a frontier time. -/
inductive MergeOp where
  | Insert : Values → MergeOp
  | RecedeTo : Time → MergeOp
deriving DecidableEq, Repr

/-- Sorting of a (Time, Weight) list by time, as done by
sort_unstable_by comparing the first components in sdb_interface.rs.
Rust's sort_unstable_by is unstable; insertion sort is one admissible
deterministic refinement (all uses in the source sort lists whose first
components are pairwise distinct, where stability is irrelevant). -/
def sortByTime (l : List TW) : List TW :=
  List.insertionSort (fun a b => a.1 ≤ b.1) l

/-- Sorting of the outer value list by value, as done by
sort_unstable_by comparing the values at the end of merge. -/
def sortByVal (l : Values) : Values :=
  List.insertionSort (fun a b => a.1 ≤ b.1) l

/-- Inner loop of the Insert branch of merge (sdb_interface.rs lines 63-80):
for one incoming (t, w), each existing entry with equal time gets w added
(the Rust loop visits every matching entry without break). -/
def addWeightAt (t : Time) (w : Weight) (cur : List TW) : List TW :=
  cur.map (fun p => if p.1 = t then (p.1, p.2 + w) else p)

/-- The body of the for loop over the incoming (t, w) pairs of one matching
value in the Insert branch of merge (sdb_interface.rs lines 63-80).  The
two Bool arguments are the found_t and delete_zero_w flags, which the Rust
code declares OUTSIDE this loop, so they are sticky across iterations:

  - after adding w to all entries with matching time, found_t becomes true
    if a match existed, and delete_zero_w becomes true if a matched entry's
    accumulated weight is zero;
  - if found_t is still false the pair is pushed, the list re-sorted by
    time, and the loop exits early (the Rust break), dropping every
    remaining incoming pair;
  - otherwise, if delete_zero_w is set, entries with zero weight are
    removed (the retain), and the loop continues with the sticky flags.
-/
def applyPairs : List TW → List TW → Bool → Bool → List TW
  | [], cur, _, _ => cur
  | (t, w) :: rest, cur, foundT, del0 =>
      let matched := cur.any (fun p => p.1 = t)
      let cur1 := addWeightAt t w cur
      let del1 := del0 || cur1.any (fun p => p.1 = t && p.2 = 0)
      let foundT1 := foundT || matched
      if foundT1 then
        applyPairs rest (if del1 then cur1.filter (fun p => !(p.2 = 0 : Bool)) else cur1)
          foundT1 del1
      else
        sortByTime (cur1 ++ [(t, w)])

/-- Replacement of the sublist of the first value equal to v, mirroring the
Rust scan over vals.iter_mut() that breaks at the first existing_v == v. -/
def updateFirst (f : List TW → List TW) (v : Val) : Values → Values
  | [] => []
  | (v', tw) :: rest =>
      if v' = v then (v', f tw) :: rest else (v', tw) :: updateFirst f v rest

/-- Processing of one incoming (v, tws) of an Insert MergeOp
(sdb_interface.rs lines 56-98): if some existing value equals v, its
sublist is updated by applyPairs and then every value whose sublist has no
nonzero weight is dropped (the retain in the else branch); if no value
matches, the incoming pair is appended as-is (and no retain runs). -/
def applyInsertOne (vals : Values) (vtws : ValueTimeWeights) : Values :=
  if vals.any (fun e => e.1 = vtws.1) then
    (updateFirst (fun tw => applyPairs vtws.2 tw false false) vtws.1 vals).filter
      (fun e => e.2.any (fun p => !(p.2 = 0 : Bool)))
  else
    vals ++ [vtws]

/-- The Insert branch of merge: fold over the incoming values in order. -/
def applyInsert (newVals : Values) (vals : Values) : Values :=
  newVals.foldl applyInsertOne vals

/-- Deterministic model of the HashMap regrouping in the RecedeTo branch
(sdb_interface.rs lines 118-126): fold the pairs into an association list,
adding the weight into the entry of an already-seen time and appending a
fresh time otherwise.  The Rust HashMap iteration order is arbitrary, but
the regrouped list is sorted by its (pairwise distinct) times right after,
so any iteration order produces the same final sublist. -/
def regroup (l : List TW) : List TW :=
  l.foldl
    (fun acc p =>
      if acc.any (fun q => q.1 = p.1) then
        acc.map (fun q => if q.1 = p.1 then (q.1, q.2 + p.2) else q)
      else acc ++ [p])
    []

/-- The per-value body of the RecedeTo branch (sdb_interface.rs lines
101-129): every time not less-or-equal to the frontier is replaced by
meet(time, frontier) (for the total order Nat, min time frontier); if some
time was modified the list is regrouped by time summing weights; the list
is then re-sorted by time. -/
def recedeOne (frontier : Time) (tw : List TW) : List TW :=
  let modified := tw.any (fun p => !(p.1 ≤ frontier : Bool))
  let tw1 := tw.map (fun p => (if p.1 ≤ frontier then p.1 else min p.1 frontier, p.2))
  sortByTime (if modified then regroup tw1 else tw1)

/-- The RecedeTo branch of merge (sdb_interface.rs lines 100-139): apply
recedeOne to every value's sublist, then drop the values whose sublist has
no entry with nonzero weight (the retain; note that it only drops whole
values, it does not remove individual zero-weight entries). -/
def applyRecedeTo (frontier : Time) (vals : Values) : Values :=
  (vals.map (fun e => (e.1, recedeOne frontier e.2))).filter
    (fun e => e.2.any (fun p => !(p.2 = 0 : Bool)))

/-- The merge callback DbspSplinterFuncs::merge (sdb_interface.rs lines
37-158) on decoded data: the old record decodes to a value list (Tombstone
decodes as the empty list), the update is dispatched on the MergeOp, the
resulting value list is re-sorted by value, and the result is Values if
non-empty and Tombstone otherwise. -/
def merge (oldMsg : PersistedValue) (newMsg : MergeOp) : PersistedValue :=
  let vals : Values :=
    match oldMsg with
    | PersistedValue.Values vals => vals
    | PersistedValue.Tombstone => []
  let vals :=
    match newMsg with
    | MergeOp.Insert newVals => applyInsert newVals vals
    | MergeOp.RecedeTo frontier => applyRecedeTo frontier vals
  let vals := sortByVal vals
  if vals.isEmpty then PersistedValue.Tombstone else PersistedValue.Values vals

/-- The merge_final callback (sdb_interface.rs lines 161-163).  Its body is
todo!(), which panics unconditionally; the panic is modelled as none, so no
input ever produces a message. -/
def merge_final (_key : Key) (_oldestMsg : PersistedValue) :
    Option (Bool × PersistedValue) :=
  none

/-! ### The trace (trace.rs)

An Antichain over the totally ordered Time is empty or a singleton, so it
is modelled as Option Time (none is the empty antichain).  meet is the set
of minimal elements of the union; join is the set of pairwise joins (so
the join with the empty antichain is empty). -/

/-- Antichain of times; over the total order Nat this is at most a
singleton. -/
abbrev Antichain := Option Time

/-- Meet of two antichains: minimal elements of the union. -/
def acMeet : Antichain → Antichain → Antichain
  | none, b => b
  | some x, none => some x
  | some x, some y => some (min x y)

/-- Join of two antichains: minimal elements of the pairwise joins, hence
empty whenever either side is empty. -/
def acJoin : Antichain → Antichain → Antichain
  | none, _ => none
  | _, none => none
  | some x, some y => some (max x y)

/-- One raw record of the store partition: the encoded SplinterKey (key,
value, timestamp) maps to the encoded SplinterValue (weight), as written by
add_batch_to_cf (trace.rs lines 358-389). -/
structure Entry where
  key : Key
  value : Val
  timestamp : Time
  weight : Weight
deriving DecidableEq, Repr

/-- The store partition (one column family), modelled as the list of its
records in the scan order of the range iterator: sorted by (key, value,
timestamp). -/
abbrev Store := List Entry

/-- Lexicographic record-key order of two entries, the scan order of the
partition. -/
def entryLt (a b : Entry) : Prop :=
  a.key < b.key ∨ (a.key = b.key ∧ (a.value < b.value ∨
    (a.value = b.value ∧ a.timestamp < b.timestamp)))

instance : DecidablePred fun p : Entry × Entry => entryLt p.1 p.2 :=
  fun _ => by unfold entryLt; infer_instance

instance (a b : Entry) : Decidable (entryLt a b) := by
  unfold entryLt; infer_instance

/-- A write of one record into the partition (cf.insert in
add_batch_to_cf): a standard key-value store insert overwrites the record
with the same record key (key, value, timestamp) and otherwise places the
record at its position in the scan order. -/
def storePut (e : Entry) : Store → Store
  | [] => [e]
  | e' :: rest =>
      if e'.key = e.key ∧ e'.value = e.value ∧ e'.timestamp = e.timestamp then
        e :: rest
      else if entryLt e e' then e :: e' :: rest
      else e' :: storePut e rest

/-- A batch as iterated by add_batch_to_cf through the batch cursor: its
lower and upper frontiers and, per key, the list of values with their
(time, weight) sublists. -/
structure PBatch where
  lower : Antichain
  upper : Antichain
  data : List (Key × Values)
deriving DecidableEq, Repr

/-- Batch::is_empty of the model: the batch holds no keys. -/
def PBatch.isEmpty (b : PBatch) : Bool :=
  b.data.isEmpty

/-- The state of a PersistentTrace (trace.rs lines 34-53): the frontier
bookkeeping, the dirty flag, the length estimate, the optional lower key
and value bounds, and the store partition holding the data. -/
structure PTrace where
  lower : Antichain
  upper : Antichain
  dirty : Bool
  approximate_len : Nat
  lower_key_bound : Option Key
  lower_val_bound : Option Val
  store : Store
deriving DecidableEq, Repr

/-- Trace::new (trace.rs lines 261-275): a fresh empty partition, lower
the singleton antichain of the minimum time, upper the empty antichain. -/
def PTrace.new : PTrace :=
  { lower := some 0
    upper := none
    dirty := false
    approximate_len := 0
    lower_key_bound := none
    lower_val_bound := none
    store := [] }

/-- add_batch_to_cf (trace.rs lines 358-389): for every key of the batch,
approximate_len grows by the number of values of that key, and one record
per (key, value, time) with its weight is inserted into the partition. -/
def add_batch_to_cf (tr : PTrace) (b : PBatch) : PTrace :=
  { tr with
    approximate_len :=
      tr.approximate_len + (b.data.map (fun kv => kv.2.length)).sum
    store :=
      b.data.foldl
        (fun st kv =>
          kv.2.foldl
            (fun st vtw =>
              vtw.2.foldl
                (fun st tw =>
                  storePut
                    { key := kv.1, value := vtw.1,
                      timestamp := tw.1, weight := tw.2 } st)
                st)
            st)
        tr.store }

/-- Trace::insert (trace.rs lines 317-331): the assert that the batch's
lower and upper frontiers differ (modelled as none on violation, the fatal
panic), the early return on an empty batch, and otherwise setting the
dirty flag, updating lower by meet and upper by join, and writing the
batch to the partition. -/
def PTrace.insert (tr : PTrace) (b : PBatch) : Option PTrace :=
  if b.lower = b.upper then none
  else if b.isEmpty then some tr
  else
    some (add_batch_to_cf
      { tr with
        dirty := true
        lower := acMeet tr.lower b.lower
        upper := acJoin tr.upper b.upper } b)

/-- Trace::recede_to (trace.rs lines 277-281).  The body is empty: despite
its own doc comment, the function is an explicit no-op and broadcasts
nothing to the partition. -/
def PTrace.recede_to (tr : PTrace) (_frontier : Time) : PTrace :=
  tr

/-- BatchReader::truncate_keys_below (trace.rs lines 232-239): raise the
lower key bound to the maximum of the current bound and the new one. -/
def PTrace.truncate_keys_below (tr : PTrace) (bound : Key) : PTrace :=
  { tr with
    lower_key_bound :=
      some (match tr.lower_key_bound with
            | some old => max old bound
            | none => bound) }

/-! ### The cursor (cursor.rs)

The SplinterDB iterator is modelled as the scan-ordered record list with a
position that ranges from -1 (before the first record) to the list length
(after the last record); get_curr is defined on positions inside the list.
The while loops of the cursor are written with explicit fuel; every loop
advances the position towards an end of the list, so fuel of one more than
the list length is sufficient, and the fuel-exhausted branch returns the
state unchanged. -/

/-- The direction argument of build_cursor_contents (cursor.rs 16-20). -/
inductive Direction where
  | Forward
  | Backward
deriving DecidableEq, Repr

/-- The SplinterDB range iterator over one partition. -/
structure SplinterCursor where
  entries : Store
  pos : Int
deriving DecidableEq, Repr

/-- get_curr of the iterator: the record at the position, none outside. -/
def SplinterCursor.getCurr (it : SplinterCursor) : Option Entry :=
  if h : 0 ≤ it.pos ∧ it.pos < it.entries.length then
    some (it.entries.get ⟨it.pos.toNat, by omega⟩)
  else none

/-- Advance the iterator one record forward (saturating past the end). -/
def SplinterCursor.next (it : SplinterCursor) : SplinterCursor :=
  { it with pos := min (it.pos + 1) it.entries.length }

/-- Move the iterator one record backward (saturating before the start). -/
def SplinterCursor.prev (it : SplinterCursor) : SplinterCursor :=
  { it with pos := max (it.pos - 1) (-1) }

/-- cf.range of the partition (used by PersistentTraceCursor::new,
cursor.rs 157-177): with no bound the scan starts at the first record;
with a bound it starts at the first record whose key is not below the
bound (the encoded seek key carries the Empty meta, which precedes every
data record of that key). -/
def SplinterCursor.range (store : Store) (bound : Option Key) : SplinterCursor :=
  { entries := store
    pos :=
      match bound with
      | none => 0
      | some k => (store.findIdx (fun e => k ≤ e.key) : Int) }

/-- read_iterator_contents (cursor.rs lines 75-116): decode the current
record; none if the iterator is invalid, and none as well when a lower key
bound is set and the record's key is below it.  Every record written by
add_batch_to_cf carries the ValueTimestamp meta, so the panics on the
Empty and Value metas cannot fire and are elided. -/
def readIter (it : SplinterCursor) (bound : Option Key) : Option Entry :=
  match it.getCurr with
  | none => none
  | some e =>
      match bound with
      | some b => if e.key < b then none else some e
      | none => some e

/-- The contents of the current group of records sharing one key and
value: build_cursor_contents collects all their (time, weight) pairs.  The
value is an Option: the source assigns Some on construction and None when
stepping values crosses into a different key. -/
structure CursorContents where
  key : Key
  value : Option Val
  tw_pairs : List TW
deriving DecidableEq, Repr

/-- The while loop of build_cursor_contents (cursor.rs lines 136-149):
while the walked record agrees with the first one on key and value, record
its (time, weight) pair, advance in the walk direction, and stop when the
iterator runs out (or leaves the bound-filtered range). -/
def buildWalk (dir : Direction) :
    Nat → SplinterCursor → Option Key → Entry → Entry → List TW →
    SplinterCursor × List TW
  | 0, it, _, _, _, acc => (it, acc)
  | fuel + 1, it, bound, start, ptr, acc =>
      if start.key = ptr.key ∧ start.value = ptr.value then
        let acc := acc ++ [(ptr.timestamp, ptr.weight)]
        let it := match dir with
          | Direction.Forward => it.next
          | Direction.Backward => it.prev
        match readIter it bound with
        | none => (it, acc)
        | some c => buildWalk dir fuel it bound start c acc
      else (it, acc)

/-- build_cursor_contents (cursor.rs lines 123-151): read the record under
the iterator (none if invalid or filtered), then walk while key and value
are unchanged, collecting the (time, weight) pairs of the group. -/
def buildCC (dir : Direction) (it : SplinterCursor) (bound : Option Key) :
    SplinterCursor × Option CursorContents :=
  match readIter it bound with
  | none => (it, none)
  | some start =>
      let w := buildWalk dir (it.entries.length + 1) it bound start start []
      (w.1, some { key := start.key, value := some start.value, tw_pairs := w.2 })

/-- The state of a PersistentTraceCursor (cursor.rs lines 48-63). -/
structure PCursor where
  iter : SplinterCursor
  cur : Option CursorContents
  bound : Option Key
deriving DecidableEq, Repr

/-- PersistentTraceCursor::new (cursor.rs lines 157-177): open the range
scan at the bound (or the start) and immediately materialize the first
group forward. -/
def PCursor.new (store : Store) (bound : Option Key) : PCursor :=
  let it := SplinterCursor.range store bound
  let w := buildCC Direction.Forward it bound
  { iter := w.1, cur := w.2, bound := bound }

/-- BatchReader::cursor of the trace (trace.rs lines 228-230). -/
def PTrace.cursor (tr : PTrace) : PCursor :=
  PCursor.new tr.store tr.lower_key_bound

/-- Cursor::key_valid (cursor.rs lines 181-183). -/
def PCursor.key_valid (c : PCursor) : Bool :=
  c.cur.isSome

/-- Cursor::val_valid (cursor.rs lines 185-187). -/
def PCursor.val_valid (c : PCursor) : Bool :=
  match c.cur with
  | some cc => cc.value.isSome
  | none => false

/-- Cursor::key (cursor.rs lines 189-194); the panic on an invalid
position is modelled as none. -/
def PCursor.keyFn (c : PCursor) : Option Key :=
  c.cur.map (fun cc => cc.key)

/-- Cursor::val (cursor.rs lines 196-201); the panic on an invalid
position is modelled as none. -/
def PCursor.valFn (c : PCursor) : Option Val :=
  match c.cur with
  | some cc => cc.value
  | none => none

/-- Cursor::fold_times (cursor.rs lines 203-215): left-fold over the
(time, weight) pairs of the current group when key and value are valid,
the initial accumulator unchanged otherwise. -/
def PCursor.fold_times (c : PCursor) (init : Weight)
    (f : Weight → Time → Weight → Weight) : Weight :=
  if c.key_valid && c.val_valid then
    match c.cur with
    | some cc => cc.tw_pairs.foldl (fun a p => f a p.1 p.2) init
    | none => init
  else init

/-- The skip loop of step_key (cursor.rs lines 252-261): while the
materialized key is at least the iterator's key, advance; stop when the
iterator runs out. -/
def skipKeyLoopF : Nat → Key → SplinterCursor → Option Key → Entry →
    SplinterCursor
  | 0, _, it, _, _ => it
  | fuel + 1, curKey, it, bound, cv =>
      if cv.key ≤ curKey then
        let it := it.next
        match readIter it bound with
        | none => it
        | some c2 => skipKeyLoopF fuel curKey it bound c2
      else it

/-- The first two statements of the step functions (for the forward
direction): read the iterator contents and, if invalid, advance once and
re-read; the result is the possibly nudged iterator and the re-read
contents. -/
def reReadF (c : PCursor) : SplinterCursor × Option Entry :=
  match readIter c.iter c.bound with
  | none => (c.iter.next, readIter c.iter.next c.bound)
  | some e => (c.iter, some e)

/-- The first two statements of the reverse step functions: as reReadF,
moving backward on an invalid position. -/
def reReadB (c : PCursor) : SplinterCursor × Option Entry :=
  match readIter c.iter c.bound with
  | none => (c.iter.prev, readIter c.iter.prev c.bound)
  | some e => (c.iter, some e)

/-- Cursor::step_key (cursor.rs lines 242-264): re-read the iterator,
nudging it forward once if invalid; skip forward past every record whose
key does not exceed the current key; re-materialize the next group. -/
def PCursor.step_key (c : PCursor) : PCursor :=
  let s1 := reReadF c
  let it2 :=
    match c.cur, s1.2 with
    | some cc, some cv =>
        skipKeyLoopF (c.iter.entries.length + 1) cc.key s1.1 c.bound cv
    | _, _ => s1.1
  let w := buildCC Direction.Forward it2 c.bound
  { c with iter := w.1, cur := w.2 }

/-- The skip loop of step_key_reverse (cursor.rs lines 276-285). -/
def skipKeyLoopB : Nat → Key → SplinterCursor → Option Key → Entry →
    SplinterCursor
  | 0, _, it, _, _ => it
  | fuel + 1, curKey, it, bound, cv =>
      if curKey ≤ cv.key then
        let it := it.prev
        match readIter it bound with
        | none => it
        | some c2 => skipKeyLoopB fuel curKey it bound c2
      else it

/-- Cursor::step_key_reverse (cursor.rs lines 266-288): the mirror image
of step_key, moving backward and re-materializing backward. -/
def PCursor.step_key_reverse (c : PCursor) : PCursor :=
  let s1 := reReadB c
  let it2 :=
    match c.cur, s1.2 with
    | some cc, some cv =>
        skipKeyLoopB (c.iter.entries.length + 1) cc.key s1.1 c.bound cv
    | _, _ => s1.1
  let w := buildCC Direction.Backward it2 c.bound
  { c with iter := w.1, cur := w.2 }

/-- The skip loop of step_val (cursor.rs lines 322-334): while the
iterator's record does not exceed the current (key, value), advance, and
keep the last read record; the comparison dereferences the current value,
which panics when the value is already invalid (the source unwraps it in
the reverse variant and compares the raw field in the forward one). -/
def skipValLoopF : Nat → Key → Option Val → SplinterCursor → Option Key →
    Entry → Except Unit (SplinterCursor × Entry)
  | 0, _, _, it, _, cv => Except.ok (it, cv)
  | fuel + 1, curKey, curVal, it, bound, cv =>
      if cv.key ≤ curKey then
        match curVal with
        | none => Except.error ()
        | some v =>
            if cv.value ≤ v then
              let it := it.next
              match readIter it bound with
              | none => Except.ok (it, cv)
              | some c2 => skipValLoopF fuel curKey curVal it bound c2
            else Except.ok (it, cv)
      else Except.ok (it, cv)

/-- Cursor::step_val (cursor.rs lines 312-341): re-read the iterator,
nudging it forward once if invalid; skip past records within the current
(key, value); then, if the current group exists and the re-read contents
share its key, materialize the next group, and if they carry a different
key just invalidate the value.  When the current group exists but the
iterator is exhausted, the source unwraps a None (line 336) and panics:
this is the error case. -/
def PCursor.step_val (c : PCursor) : Except Unit PCursor :=
  match c.cur, reReadF c with
  | some cc, (it1, some cv) =>
      (match skipValLoopF (c.iter.entries.length + 1) cc.key cc.value it1
          c.bound cv with
       | Except.error e => Except.error e
       | Except.ok w =>
          if cc.key = w.2.key then
            let b := buildCC Direction.Forward w.1 c.bound
            Except.ok { c with iter := b.1, cur := b.2 }
          else
            Except.ok { c with iter := w.1, cur := some { cc with value := none } })
  | some _, (_, none) => Except.error ()
  | none, (it1, _) =>
      let b := buildCC Direction.Forward it1 c.bound
      Except.ok { c with iter := b.1, cur := b.2 }

/-- The skip loop of step_val_reverse (cursor.rs lines 353-364), with the
explicit unwrap of the current value in the loop condition. -/
def skipValLoopB : Nat → Key → Option Val → SplinterCursor → Option Key →
    Entry → Except Unit (SplinterCursor × Entry)
  | 0, _, _, it, _, cv => Except.ok (it, cv)
  | fuel + 1, curKey, curVal, it, bound, cv =>
      if curKey ≤ cv.key then
        match curVal with
        | none => Except.error ()
        | some v =>
            if v ≤ cv.value then
              let it := it.prev
              match readIter it bound with
              | none => Except.ok (it, cv)
              | some c2 => skipValLoopB fuel curKey curVal it bound c2
            else Except.ok (it, cv)
      else Except.ok (it, cv)

/-- Cursor::step_val_reverse (cursor.rs lines 343-371): the mirror image
of step_val, with the same panic when the current group exists but the
iterator has run out (line 366). -/
def PCursor.step_val_reverse (c : PCursor) : Except Unit PCursor :=
  match c.cur, reReadB c with
  | some cc, (it1, some cv) =>
      (match skipValLoopB (c.iter.entries.length + 1) cc.key cc.value it1
          c.bound cv with
       | Except.error e => Except.error e
       | Except.ok w =>
          if cc.key = w.2.key then
            let b := buildCC Direction.Backward w.1 c.bound
            Except.ok { c with iter := b.1, cur := b.2 }
          else
            Except.ok { c with iter := w.1, cur := some { cc with value := none } })
  | some _, (_, none) => Except.error ()
  | none, (it1, _) =>
      let b := buildCC Direction.Backward it1 c.bound
      Except.ok { c with iter := b.1, cur := b.2 }

/-- The cursor operations an operator can issue after construction.  The
seek, rewind and fast-forward families are all todo or unimplemented in
the source (cursor.rs lines 290-310 and 373-409) and panic when called. -/
inductive CursorOp where
  | stepKey
  | stepKeyReverse
  | stepVal
  | stepValReverse
  | seekKey (k : Key)
  | seekKeyReverse (k : Key)
  | seekVal (v : Val)
  | seekValReverse (v : Val)
  | rewindKeys
  | fastForwardKeys
  | rewindVals
  | fastForwardVals
deriving DecidableEq, Repr

/-- One cursor operation applied to a cursor state; panics are errors. -/
def applyOp (c : PCursor) : CursorOp → Except Unit PCursor
  | CursorOp.stepKey => Except.ok c.step_key
  | CursorOp.stepKeyReverse => Except.ok c.step_key_reverse
  | CursorOp.stepVal => c.step_val
  | CursorOp.stepValReverse => c.step_val_reverse
  | _ => Except.error ()

/-- A sequence of cursor operations applied left to right; a panic stops
the run. -/
def runOps (ops : List CursorOp) (c : PCursor) : Except Unit PCursor :=
  match ops with
  | [] => Except.ok c
  | op :: rest =>
      match applyOp c op with
      | Except.error e => Except.error e
      | Except.ok c1 => runOps rest c1

/-- Whether the cursor exposes (has materialized a group for) a key
strictly below the given bound. -/
def exposesKeyBelow (b : Key) (c : PCursor) : Bool :=
  match c.cur with
  | some cc => decide (cc.key < b)
  | none => false

/-! ### consolidate (trace.rs lines 288-315)

The batch builder is modelled from the spec, section 3 and 4.3: a Batch is
an immutable sorted chunk of updates; the builder is created at the
minimum time, receives the pushed ((key, value), weight) tuples in order,
and done() returns them as the batch.  The nested while loops over
key_valid and val_valid are flattened into one fueled loop (when the key
is valid, the inner loop body runs if the value is also valid, and
otherwise the outer loop advances the key). -/

/-- The output batch of consolidate: the builder's time (the minimum
time) and the pushed ((key, value), weight) tuples in push order. -/
abbrev ConsolidatedBatch := Time × List ((Key × Val) × Weight)

/-- The loop of consolidate: while a key is valid, for each valid value
clone the value, accumulate the weights of the current group from zero
through map_times/fold_times, clone the key, push to the builder and step
the value; once values are exhausted, step the key.  A cursor panic
escapes as an error. -/
def consolidateLoop : Nat → PCursor → List ((Key × Val) × Weight) →
    Except Unit (List ((Key × Val) × Weight))
  | 0, _, acc => Except.ok acc
  | fuel + 1, c, acc =>
      if c.key_valid then
        if c.val_valid then
          match c.valFn, c.keyFn with
          | some v, some k =>
              let w := c.fold_times 0 (fun a _ cw => a + cw)
              match c.step_val with
              | Except.error e => Except.error e
              | Except.ok c2 => consolidateLoop fuel c2 (acc ++ [((k, v), w)])
          | _, _ => Except.error ()
        else
          consolidateLoop fuel c.step_key acc
      else Except.ok acc

/-- Trace::consolidate (trace.rs lines 288-315): one full cursor pass,
accumulating the weight of every (key, value) group and pushing it (with
no zero-weight check) to a builder at the minimum time; the function's
only return is Some of the built batch, and a cursor panic escapes. -/
def PTrace.consolidate (tr : PTrace) : Except Unit (Option ConsolidatedBatch) :=
  (consolidateLoop (tr.store.length * 2 + 2) tr.cursor []).map
    (fun l => some (0, l))

/-! ### Concrete data for the testable scenarios -/

/-- The batch B1 of the consolidate scenario: the single update
(key 1, value "a", time 0, weight 1), the value "a" coded as 5. -/
def cB1 : PBatch :=
  { lower := some 0, upper := some 1, data := [(1, [(5, [(0, 1)])])] }

/-- The batch B2 of the consolidate scenario: the single update
(key 1, value "a", time 0, weight -1), the value "a" coded as 5. -/
def cB2 : PBatch :=
  { lower := some 0, upper := some 1, data := [(1, [(5, [(0, -1)])])] }

/-- The trace state after inserting cB1 and then cB2 into a fresh trace:
the second insert carries the same record key (key 1, value 5, time 0), so
the store write overwrites the first record and a single record of weight
-1 remains. -/
def cT2 : PTrace :=
  { lower := some 0
    upper := none
    dirty := true
    approximate_len := 2
    lower_key_bound := none
    lower_val_bound := none
    store := [{ key := 1, value := 5, timestamp := 0, weight := -1 }] }

/-! ### The stored-record invariant (spec section 3) -/

/-- Wellformedness of one value's (time, weight) sublist, following the
spec's words: nonempty, times sorted strictly ascending (hence unique),
and no entry with zero weight. -/
def twOK (l : List TW) : Prop :=
  l ≠ [] ∧ l.Pairwise (fun a b => a.1 < b.1) ∧ ∀ p ∈ l, p.2 ≠ 0

/-- Weak wellformedness of a sublist: nonempty, times sorted strictly
ascending, and at least one entry with nonzero weight (individual
zero-weight entries allowed). -/
def twOKweak (l : List TW) : Prop :=
  l ≠ [] ∧ l.Pairwise (fun a b => a.1 < b.1) ∧ ∃ p ∈ l, p.2 ≠ 0

/-- The stored-record invariant, following the spec's words: the outer
list is sorted strictly ascending by value; within each value's list the
times are sorted strictly ascending (hence unique); no entry carries a
zero weight; the empty value list is represented as Tombstone, never as
Values of the empty list. -/
def storedRecordInvariant : PersistedValue → Prop
  | PersistedValue.Tombstone => True
  | PersistedValue.Values vs =>
      vs ≠ [] ∧ vs.Pairwise (fun a b => a.1 < b.1) ∧ ∀ e ∈ vs, twOK e.2

/-- The weakened stored-record invariant: as storedRecordInvariant but a
value's sublist may carry zero-weight entries as long as it keeps at
least one nonzero entry. -/
def storedRecordInvariantWeak : PersistedValue → Prop
  | PersistedValue.Tombstone => True
  | PersistedValue.Values vs =>
      vs ≠ [] ∧ vs.Pairwise (fun a b => a.1 < b.1) ∧ ∀ e ∈ vs, twOKweak e.2

/-- Wellformedness of the payload of an Insert MergeOp: every value's
incoming sublist is nonempty, sorted strictly ascending by time, and free
of zero weights. -/
def opWF : MergeOp → Prop
  | MergeOp.Insert nv => ∀ e ∈ nv, twOK e.2
  | MergeOp.RecedeTo _ => True

instance : DecidablePred twOK := fun l => by unfold twOK; infer_instance

instance : DecidablePred twOKweak := fun l => by unfold twOKweak; infer_instance

instance : DecidablePred storedRecordInvariant := fun p => by
  cases p <;> unfold storedRecordInvariant <;> infer_instance

instance : DecidablePred storedRecordInvariantWeak := fun p => by
  cases p <;> unfold storedRecordInvariantWeak <;> infer_instance

instance : DecidablePred opWF := fun op => by
  cases op <;> unfold opWF <;> infer_instance


instance : IsTotal TW (fun a b => a.1 ≤ b.1) :=
  ⟨fun a b => Nat.le_total a.1 b.1⟩

instance : IsTrans TW (fun a b => a.1 ≤ b.1) :=
  ⟨fun _ _ _ hab hbc => Nat.le_trans hab hbc⟩

instance : IsTotal ValueTimeWeights (fun a b => a.1 ≤ b.1) :=
  ⟨fun a b => Int.le_total a.1 b.1⟩

instance : IsTrans ValueTimeWeights (fun a b => a.1 ≤ b.1) :=
  ⟨fun _ _ _ hab hbc => Int.le_trans hab hbc⟩

/-- The invariant that every materialized group's key respects the
cursor's lower key bound. -/
def curAboveBound (c : PCursor) : Prop :=
  ∀ cc, c.cur = some cc → ∀ b0, c.bound = some b0 → b0 ≤ cc.key


/-! ### Claims about the merge policy and the trace operations -/

/-- Claim C1: the claim states that Trace::recede_to(f) broadcasts a
RecedeTo(f) merge operation to every existing key and in particular is not
a no-op on a trace with at least one key.  The code (trace.rs lines
277-281) contradicts its own doc comment: the body is empty, so recede_to
is the identity on every trace -- including every trace whose partition
holds keys -- and nothing is ever broadcast to the store. -/
theorem recede_to_is_identity :
    ∀ (tr : PTrace) (f : Time), tr.recede_to f = tr :=
  fun _ _ => rfl

/-- Claim C2: evaluation of the merge callback at a failing input.  The
old record holds value 7 with time list [(0, 1)]; the Insert op brings
(0, 5) and (1, 1) for value 7.  The claim (and the spec) require the pair
(1, 1), whose time is absent, to be inserted into the sublist, giving
[(0, 6), (1, 1)].  The code instead returns [(0, 6)]: the found_t flag is
declared outside the loop over the incoming pairs, so after the pair
(0, 5) matches, the pair (1, 1) is silently dropped. -/
theorem merge_insert_drops_unmatched_pair :
    merge (PersistedValue.Values [(7, [(0, 1)])])
        (MergeOp.Insert [(7, [(0, 5), (1, 1)])]) =
      PersistedValue.Values [(7, [(0, 6)])] ∧
    merge (PersistedValue.Values [(7, [(0, 1)])])
        (MergeOp.Insert [(7, [(0, 5), (1, 1)])]) ≠
      PersistedValue.Values [(7, [(0, 6), (1, 1)])] := by
  constructor
  · rfl
  · decide

/-- Claim C3: the merge callback is not grouping-independent over Insert
operations.  Folding the updates (7, [(0, 5)]) and (7, [(1, 1)]) into the
record Values [(7, [(0, 1)])] one Insert at a time keeps the pair (1, 1),
but folding them in a single pass (one Insert carrying both pairs) drops
it, so the two groupings of the same updates produce different final
records. -/
theorem merge_insert_not_grouping_independent :
    merge (merge (PersistedValue.Values [(7, [(0, 1)])])
        (MergeOp.Insert [(7, [(0, 5)])]))
        (MergeOp.Insert [(7, [(1, 1)])]) ≠
      merge (PersistedValue.Values [(7, [(0, 1)])])
        (MergeOp.Insert [(7, [(0, 5), (1, 1)])]) := by
  decide

/-- Claim C9: the merge_final callback never emits any marker: its body is
todo!(), which panics on every input, deletion marker and insert marker
alike. -/
theorem merge_final_always_panics :
    ∀ (k : Key) (pv : PersistedValue), merge_final k pv = none :=
  fun _ _ => rfl

/-- Claim C5: evaluation of the consolidate scenario.  Inserting the
batches B1 = (key 1, value "a", time 0, weight 1) and B2 = (key 1, value
"a", time 0, weight -1) into a fresh trace leaves a single raw record of
weight -1 (the second store insert overwrites the first, which carries the
same record key), and consolidate then panics: after pushing the last
group, step_val unwraps the None returned by the exhausted iterator
(cursor.rs line 336).  The claim's empty output batch is never
produced. -/
theorem consolidate_panics_on_scenario :
    (PTrace.new.insert cB1).bind (fun t => t.insert cB2) = some cT2 ∧
    cT2.consolidate = Except.error () := by
  constructor
  · rfl
  · rfl

/-- Claim C10, counterexample: a trace holding one record for which
consolidate does not return at all -- it panics in step_val once the
iterator is exhausted -- refuting the claim that consolidate returns
Some(batch) for every trace. -/
theorem consolidate_errors_on_singleton :
    PTrace.consolidate
        { lower := some 0, upper := none, dirty := true,
          approximate_len := 1, lower_key_bound := none,
          lower_val_bound := none,
          store := [{ key := 2, value := 3, timestamp := 0, weight := 1 }] } =
      Except.error () := by
  rfl

/-- Claim C10, amended: whenever consolidate does return (it panics on
every trace whose visible store is non-empty), the returned Option is
Some of a batch, never None: the only return path wraps the built batch in
Some. -/
theorem consolidate_some_whenever_returns (tr : PTrace)
    (r : Option ConsolidatedBatch) (h : tr.consolidate = Except.ok r) :
    ∃ b, r = some b := by
  unfold PTrace.consolidate at h
  cases hl : consolidateLoop (tr.store.length * 2 + 2) tr.cursor [] with
  | error e => rw [hl] at h; simp [Except.map] at h
  | ok l =>
      rw [hl] at h
      simp only [Except.map, Except.ok.injEq] at h
      exact ⟨(0, l), h.symm⟩

/-- Claim C10, witness: on the fresh empty trace consolidate returns, and
the amended theorem yields a batch from that return. -/
theorem consolidate_some_whenever_returns_witness :
    PTrace.new.consolidate = Except.ok (some (0, [])) ∧
    ∃ b, (some ((0 : Time), ([] : List ((Key × Val) × Weight)))) = some b :=
  ⟨rfl, consolidate_some_whenever_returns PTrace.new (some (0, [])) rfl⟩

/-- Claim C7: Trace::insert panics when the batch's lower and upper
frontiers coincide; an empty batch (under the precondition) is a no-op
returning the trace unchanged; a non-empty batch sets the dirty flag,
lowers the lower frontier by meet and raises the upper frontier by join,
writes the batch's records to the store partition, grows approximate_len
by the number of values written, and leaves the key and value bounds
unchanged. -/
theorem insert_spec (tr : PTrace) (b : PBatch) :
    (b.lower = b.upper → tr.insert b = none) ∧
    (b.lower ≠ b.upper → b.isEmpty = true → tr.insert b = some tr) ∧
    (b.lower ≠ b.upper → b.isEmpty = false →
      ∃ tr', tr.insert b = some tr' ∧
        tr'.dirty = true ∧
        tr'.lower = acMeet tr.lower b.lower ∧
        tr'.upper = acJoin tr.upper b.upper ∧
        tr'.store = (add_batch_to_cf tr b).store ∧
        tr'.approximate_len =
          tr.approximate_len + (b.data.map (fun kv => kv.2.length)).sum ∧
        tr'.lower_key_bound = tr.lower_key_bound ∧
        tr'.lower_val_bound = tr.lower_val_bound) := by
  refine ⟨fun h => ?_, fun h he => ?_, fun h he => ?_⟩
  · simp [PTrace.insert, h]
  · simp [PTrace.insert, h, he]
  · have htr' : tr.insert b = some (add_batch_to_cf
        { tr with
          dirty := true
          lower := acMeet tr.lower b.lower
          upper := acJoin tr.upper b.upper } b) := by
      simp [PTrace.insert, h, he]
    refine ⟨_, htr', ?_, ?_, ?_, ?_, ?_, ?_, ?_⟩ <;> simp [add_batch_to_cf]

/-! ### Lemmas about the sorting and regrouping helpers -/

/-- Sorting by time produces a list sorted by time. -/
theorem sortByTime_sorted (l : List TW) :
    (sortByTime l).Sorted (fun a b => a.1 ≤ b.1) :=
  List.sorted_insertionSort _ l

/-- Sorting by time of a list already sorted by time changes nothing. -/
theorem sortByTime_eq_of_sorted {l : List TW}
    (h : l.Sorted (fun a b => a.1 ≤ b.1)) : sortByTime l = l :=
  h.insertionSort_eq

/-- Sorting by time is a permutation. -/
theorem sortByTime_perm (l : List TW) : (sortByTime l).Perm l :=
  List.perm_insertionSort _ l

/-- Sorting by value produces a list sorted by value. -/
theorem sortByVal_sorted (l : Values) :
    (sortByVal l).Sorted (fun a b => a.1 ≤ b.1) :=
  List.sorted_insertionSort _ l

/-- Sorting by value of a list already sorted by value changes nothing. -/
theorem sortByVal_eq_of_sorted {l : Values}
    (h : l.Sorted (fun a b => a.1 ≤ b.1)) : sortByVal l = l :=
  h.insertionSort_eq

/-- Sorting by value is a permutation. -/
theorem sortByVal_perm (l : Values) : (sortByVal l).Perm l :=
  List.perm_insertionSort _ l

/-- Every time of the regrouped list already occurs as a time of the
input list. -/
theorem regroup_keys (P : Time → Prop) {l : List TW}
    (h : ∀ q ∈ l, P q.1) : ∀ p ∈ regroup l, P p.1 := by
  unfold regroup
  have h2 : ∀ l2 : List TW, (∀ q ∈ l2, P q.1) →
      ∀ acc : List TW, (∀ p ∈ acc, P p.1) →
      ∀ p ∈ l2.foldl
        (fun acc p =>
          if acc.any (fun q => q.1 = p.1) then
            acc.map (fun q => if q.1 = p.1 then (q.1, q.2 + p.2) else q)
          else acc ++ [p]) acc, P p.1 := by
    intro l2
    induction l2 with
    | nil => intro _ acc hacc p hp; exact hacc p hp
    | cons x xs ih =>
        intro hl2 acc hacc p hp
        simp only [List.foldl_cons] at hp
        refine ih (fun q hq => hl2 q (by simp [hq])) _ ?_ p hp
        intro q hq
        by_cases hx : acc.any (fun r => r.1 = x.1)
        · simp only [hx, if_true] at hq
          obtain ⟨r, hr, hrq⟩ := List.mem_map.1 hq
          by_cases hr1 : r.1 = x.1
          · simp only [hr1, if_true] at hrq
            subst hrq
            exact hl2 x (by simp)
          · simp only [hr1, if_false] at hrq
            subst hrq
            exact hacc r hr
        · simp only [hx, if_false] at hq
          rcases List.mem_append.1 hq with hq | hq
          · exact hacc q hq
          · rw [List.mem_singleton] at hq
            rw [hq]
            exact hl2 x (by simp)
  exact h2 l h [] (by simp)

/-- Unfolding equation of recedeOne. -/
theorem recedeOne_def (f : Time) (tw : List TW) :
    recedeOne f tw =
      sortByTime
        (if tw.any (fun p => !(p.1 ≤ f : Bool)) then
          regroup (tw.map (fun p => ((if p.1 ≤ f then p.1 else min p.1 f), p.2)))
        else tw.map (fun p => ((if p.1 ≤ f then p.1 else min p.1 f), p.2))) :=
  rfl

/-- The output of recedeOne is sorted by time. -/
theorem recedeOne_sorted (f : Time) (tw : List TW) :
    (recedeOne f tw).Sorted (fun a b => a.1 ≤ b.1) := by
  rw [recedeOne_def]
  exact sortByTime_sorted _

/-- Every time in the output of recedeOne is bounded by the frontier. -/
theorem recedeOne_le (f : Time) (tw : List TW) :
    ∀ p ∈ recedeOne f tw, p.1 ≤ f := by
  intro p hp
  unfold recedeOne at hp
  rw [List.Perm.mem_iff (sortByTime_perm _)] at hp
  have hmap : ∀ q ∈ tw.map
      (fun p => ((if p.1 ≤ f then p.1 else min p.1 f), p.2)), q.1 ≤ f := by
    intro q hq
    obtain ⟨r, _, hrq⟩ := List.mem_map.1 hq
    subst hrq
    by_cases hr : r.1 ≤ f
    · simp [hr]
    · simp [hr]
  by_cases hm : tw.any (fun p => !(p.1 ≤ f : Bool))
  · simp only [hm, if_true] at hp
    exact regroup_keys (fun t => t ≤ f) hmap p hp
  · simp only [hm, if_false] at hp
    exact hmap p hp

/-- Mapping the frontier collapse over a list whose times are already
bounded by the frontier changes nothing. -/
theorem recede_map_id {f : Time} {l : List TW} (h : ∀ p ∈ l, p.1 ≤ f) :
    l.map (fun p => ((if p.1 ≤ f then p.1 else min p.1 f), p.2)) = l := by
  rw [show l = l.map id by simp]
  rw [List.map_map]
  refine List.map_congr_left ?_
  intro p hp
  simp [h p (by simpa using hp)]

/-- Applying recedeOne twice with the same frontier is the same as
applying it once. -/
theorem recedeOne_idem (f : Time) (tw : List TW) :
    recedeOne f (recedeOne f tw) = recedeOne f tw := by
  have hle := recedeOne_le f tw
  have hmod : (recedeOne f tw).any (fun p => !(p.1 ≤ f : Bool)) = false := by
    rw [List.any_eq_false]
    intro p hp
    simp [hle p hp]
  rw [recedeOne_def f (recedeOne f tw), hmod]
  simp only [Bool.false_eq_true, if_false]
  rw [recede_map_id hle]
  exact sortByTime_eq_of_sorted (recedeOne_sorted f tw)

/-- Claim C6, counterexample: the merge callback with RecedeTo(1) on the
record with value 7 and times [(0, 1), (2, 1), (3, -1)] collapses times 2
and 3 onto 1, whose weights sum to zero; the code keeps the zero-weight
entry (1, 0) because the retain only drops values ALL of whose entries are
zero, while the claim says zero-weight entries are dropped, which would
give [(0, 1)] alone. -/
theorem merge_recedeTo_keeps_zero_entry :
    merge (PersistedValue.Values [(7, [(0, 1), (2, 1), (3, -1)])])
        (MergeOp.RecedeTo 1) =
      PersistedValue.Values [(7, [(0, 1), (1, 0)])] ∧
    merge (PersistedValue.Values [(7, [(0, 1), (2, 1), (3, -1)])])
        (MergeOp.RecedeTo 1) ≠
      PersistedValue.Values [(7, [(0, 1)])] := by
  constructor
  · rfl
  · decide

/-- Claim C6, amended: applying the merge callback with RecedeTo(f) twice
in a row to any PersistedValue yields the same PersistedValue as applying
it once: times not less-or-equal f are replaced by meet(time, f),
duplicate times are re-grouped with weights summed, values all of whose
entries have zero weight are dropped (individual zero-weight entries of a
value that keeps a nonzero entry are retained), each sublist is re-sorted
by time, and a second application changes nothing. -/
theorem merge_recedeTo_idempotent (p : PersistedValue) (f : Time) :
    merge (merge p (MergeOp.RecedeTo f)) (MergeOp.RecedeTo f) =
      merge p (MergeOp.RecedeTo f) := by
  have core : ∀ vals : Values,
      merge (merge (PersistedValue.Values vals) (MergeOp.RecedeTo f))
          (MergeOp.RecedeTo f) =
        merge (PersistedValue.Values vals) (MergeOp.RecedeTo f) := by
    intro vals
    conv_lhs => rw [merge]
    set v1 := applyRecedeTo f vals with hv1
    set v2 := sortByVal v1 with hv2
    by_cases hemp : v2.isEmpty
    · simp only [merge, ← hv1, ← hv2, hemp, if_true]
      rfl
    · simp only [merge, ← hv1, ← hv2, hemp, Bool.false_eq_true, if_false]
      have hmem1 : ∀ e ∈ v1, recedeOne f e.2 = e.2 ∧
          e.2.any (fun q => !(q.2 = 0 : Bool)) := by
        intro e he
        rw [hv1] at he
        unfold applyRecedeTo at he
        have hprop := List.of_mem_filter he
        have hemem := List.mem_of_mem_filter he
        obtain ⟨x, _, hxe⟩ := List.mem_map.1 hemem
        refine ⟨?_, by simpa using hprop⟩
        rw [← hxe]
        exact recedeOne_idem f x.2
      have hmem2 : ∀ e ∈ v2, recedeOne f e.2 = e.2 ∧
          e.2.any (fun q => !(q.2 = 0 : Bool)) :=
        fun e he => hmem1 e ((List.Perm.mem_iff (sortByVal_perm _)).1 he)
      have hmap : v2.map (fun e => (e.1, recedeOne f e.2)) = v2 := by
        rw [show v2 = v2.map id by simp, List.map_map]
        refine List.map_congr_left ?_
        intro e he
        have := (hmem2 e (by simpa using he)).1
        simp [this]
      have hfilter : applyRecedeTo f v2 = v2 := by
        unfold applyRecedeTo
        rw [hmap]
        exact List.filter_eq_self.2 (fun e he => (hmem2 e he).2)
      have hsort : sortByVal v2 = v2 :=
        sortByVal_eq_of_sorted (by rw [hv2]; exact sortByVal_sorted _)
      rw [hfilter, hsort]
      simp [hemp]
  cases p with
  | Values vals => exact core vals
  | Tombstone =>
      have h1 : merge PersistedValue.Tombstone (MergeOp.RecedeTo f) =
          merge (PersistedValue.Values []) (MergeOp.RecedeTo f) := rfl
      rw [h1]
      exact core []

/-- A fully wellformed sublist is weakly wellformed. -/
theorem twOK.weak {l : List TW} (h : twOK l) : twOKweak l := by
  obtain ⟨hne, hs, hz⟩ := h
  cases l with
  | nil => exact absurd rfl hne
  | cons p rest =>
      exact ⟨by simp, hs, p, by simp, hz p (by simp)⟩

/-- Strictly key-sorted pair lists have duplicate-free keys. -/
theorem keys_nodup_of_strict {α β : Type} [LinearOrder α] {l : List (α × β)}
    (h : l.Pairwise (fun a b => a.1 < b.1)) : (l.map Prod.fst).Nodup :=
  List.pairwise_map.2 (h.imp fun hab => ne_of_lt hab)

/-- A pair list sorted by keys with duplicate-free keys is strictly
sorted by keys. -/
theorem strict_of_le_nodup {α β : Type} [LinearOrder α] {l : List (α × β)}
    (hle : l.Pairwise (fun a b => a.1 ≤ b.1))
    (hnd : (l.map Prod.fst).Nodup) :
    l.Pairwise (fun a b => a.1 < b.1) :=
  (hle.and (List.pairwise_map.1 hnd)).imp fun hab =>
    lt_of_le_of_ne hab.1 hab.2

/-- addWeightAt does not change the times of the list. -/
theorem addWeightAt_keys (t : Time) (w : Weight) (cur : List TW) :
    (addWeightAt t w cur).map Prod.fst = cur.map Prod.fst := by
  unfold addWeightAt
  rw [List.map_map]
  refine List.map_congr_left ?_
  intro p _
  by_cases h : p.1 = t <;> simp [h]

/-- addWeightAt preserves strict sortedness by time. -/
theorem addWeightAt_strict {t : Time} {w : Weight} {cur : List TW}
    (h : cur.Pairwise (fun a b => a.1 < b.1)) :
    (addWeightAt t w cur).Pairwise (fun a b => a.1 < b.1) :=
  List.pairwise_map.1 (by
    rw [addWeightAt_keys]
    exact List.pairwise_map.2 h)

/-- addWeightAt with no matching time is the identity. -/
theorem addWeightAt_id {t : Time} {w : Weight} {cur : List TW}
    (h : ∀ p ∈ cur, p.1 ≠ t) : addWeightAt t w cur = cur := by
  unfold addWeightAt
  rw [show cur = cur.map id by simp]
  rw [List.map_map]
  refine List.map_congr_left ?_
  intro p hp
  simp [h p (by simpa using hp)]

/-- The members of addWeightAt: each comes from a member of the input,
unchanged when its time differs from the target, with the weight summed
otherwise. -/
theorem addWeightAt_mem {t : Time} {w : Weight} {cur : List TW} {q : TW}
    (hq : q ∈ addWeightAt t w cur) :
    ∃ p ∈ cur, q = if p.1 = t then (p.1, p.2 + w) else p := by
  unfold addWeightAt at hq
  obtain ⟨p, hp, hpq⟩ := List.mem_map.1 hq
  exact ⟨p, hp, hpq.symm⟩

/-- updateFirst does not change the values of the outer list. -/
theorem updateFirst_keys (f : List TW → List TW) (v : Val) :
    ∀ vs : Values, (updateFirst f v vs).map Prod.fst = vs.map Prod.fst
  | [] => rfl
  | (v', tw) :: rest => by
      unfold updateFirst
      by_cases h : v' = v <;> simp [h, updateFirst_keys f v rest]

/-- A member of updateFirst is either an original member or the update of
an original member. -/
theorem updateFirst_mem {f : List TW → List TW} {v : Val} :
    ∀ {vs : Values} {e : ValueTimeWeights}, e ∈ updateFirst f v vs →
      e ∈ vs ∨ ∃ e0 ∈ vs, e = (e0.1, f e0.2)
  | [], _, h => by simp [updateFirst] at h
  | (v', tw) :: rest, e, h => by
      unfold updateFirst at h
      by_cases hv : v' = v
      · rw [if_pos hv] at h
        rcases List.mem_cons.1 h with he | he
        · exact Or.inr ⟨(v', tw), by simp, he⟩
        · exact Or.inl (List.mem_cons.2 (Or.inr he))
      · rw [if_neg hv] at h
        rcases List.mem_cons.1 h with he | he
        · exact Or.inl (by simp [he])
        · rcases updateFirst_mem he with h2 | ⟨e0, he0, h2⟩
          · exact Or.inl (List.mem_cons.2 (Or.inr h2))
          · exact Or.inr ⟨e0, List.mem_cons.2 (Or.inr he0), h2⟩

/-- The regrouped list has duplicate-free times: an already-seen time
only has its weight updated, a fresh time is appended exactly once. -/
theorem regroup_nodup (l : List TW) : ((regroup l).map Prod.fst).Nodup := by
  unfold regroup
  have h2 : ∀ l2 acc : List TW, (acc.map Prod.fst).Nodup →
      ((l2.foldl
        (fun acc p =>
          if acc.any (fun q => q.1 = p.1) then
            acc.map (fun q => if q.1 = p.1 then (q.1, q.2 + p.2) else q)
          else acc ++ [p]) acc).map Prod.fst).Nodup := by
    intro l2
    induction l2 with
    | nil => intro acc hacc; exact hacc
    | cons x xs ih =>
        intro acc hacc
        simp only [List.foldl_cons]
        refine ih _ ?_
        by_cases hx : acc.any (fun r => r.1 = x.1)
        · rw [if_pos hx]
          have hkeys : (acc.map (fun q =>
              if q.1 = x.1 then (q.1, q.2 + x.2) else q)).map Prod.fst =
              acc.map Prod.fst := by
            rw [List.map_map]
            refine List.map_congr_left ?_
            intro p _
            by_cases h : p.1 = x.1 <;> simp [h]
          rw [hkeys]
          exact hacc
        · rw [if_neg hx]
          rw [List.map_append]
          simp only [List.map_cons, List.map_nil]
          rw [List.nodup_append]
          refine ⟨hacc, List.nodup_singleton _, ?_⟩
          intro a ha
          simp only [List.mem_singleton]
          intro hax
          obtain ⟨q, hq, hqa⟩ := List.mem_map.1 ha
          exact hx (List.any_eq_true.2 ⟨q, hq, by simp [hqa, hax]⟩)
  exact h2 l [] (by simp)

/-- The output of recedeOne on a strictly sorted sublist is strictly
sorted: regrouping gives duplicate-free times, and the final sort orders
them. -/
theorem recedeOne_strict {f : Time} {tw : List TW}
    (h : tw.Pairwise (fun a b => a.1 < b.1)) :
    (recedeOne f tw).Pairwise (fun a b => a.1 < b.1) := by
  rw [recedeOne_def]
  by_cases hm : tw.any (fun p => !(p.1 ≤ f : Bool))
  · rw [if_pos hm]
    refine strict_of_le_nodup (sortByTime_sorted _) ?_
    exact ((sortByTime_perm _).map Prod.fst).nodup_iff.2 (regroup_nodup _)
  · rw [if_neg hm]
    have hall : ∀ p ∈ tw, p.1 ≤ f := by
      intro p hp
      by_contra hc
      exact hm (List.any_eq_true.2 ⟨p, hp, by simpa using hc⟩)
    rw [recede_map_id hall]
    rw [sortByTime_eq_of_sorted (h.imp fun hab => le_of_lt hab)]
    exact h

/-- The pair loop of the Insert branch preserves strict sortedness and
freedom from zero weights, given nonzero incoming weights: an addition
that cancels a weight to zero raises the sticky delete flag and is
filtered in the same iteration, and a pushed pair has nonzero weight and a
time absent from the list. -/
theorem applyPairs_ok :
    ∀ (tws cur : List TW) (foundT del0 : Bool),
      cur.Pairwise (fun a b => a.1 < b.1) → (∀ p ∈ cur, p.2 ≠ 0) →
      (∀ p ∈ tws, p.2 ≠ 0) →
      (applyPairs tws cur foundT del0).Pairwise (fun a b => a.1 < b.1) ∧
      ∀ p ∈ applyPairs tws cur foundT del0, p.2 ≠ 0
  | [], _, _, _, hs, hz, _ => ⟨hs, hz⟩
  | (t, w) :: rest, cur, foundT, del0, hs, hz, htws => by
      have hw : w ≠ 0 := htws (t, w) (List.mem_cons_self _ _)
      have hrest : ∀ p ∈ rest, p.2 ≠ 0 :=
        fun p hp => htws p (List.mem_cons_of_mem _ hp)
      have hcur1s := addWeightAt_strict (t := t) (w := w) hs
      unfold applyPairs
      dsimp only
      by_cases hf : (foundT || cur.any fun p => decide (p.1 = t)) = true
      · rw [if_pos hf]
        by_cases hd : (del0 || (addWeightAt t w cur).any fun p =>
            decide (p.1 = t) && decide (p.2 = 0)) = true
        · rw [if_pos hd]
          refine applyPairs_ok rest _ _ _
            (hcur1s.sublist (List.filter_sublist _)) ?_ hrest
          intro p hp
          have := List.of_mem_filter hp
          simpa using this
        · rw [if_neg hd]
          refine applyPairs_ok rest _ _ _ hcur1s ?_ hrest
          intro p hp
          obtain ⟨q, hq, hpq⟩ := addWeightAt_mem hp
          by_cases hq1 : q.1 = t
          · rw [if_pos hq1] at hpq
            subst hpq
            intro hp0
            apply hd
            simp only [Bool.or_eq_true]
            right
            refine List.any_eq_true.2 ⟨(q.1, q.2 + w), hp, ?_⟩
            have hz0 : q.2 + w = 0 := by simpa using hp0
            simp [hq1, hz0]
          · rw [if_neg hq1] at hpq
            rw [hpq]
            exact hz q hq
      · rw [if_neg hf]
        have hmatched : ∀ p ∈ cur, p.1 ≠ t := by
          intro p hp hpt
          apply hf
          simp only [Bool.or_eq_true]
          right
          exact List.any_eq_true.2 ⟨p, hp, by simp [hpt]⟩
        rw [addWeightAt_id hmatched]
        constructor
        · refine strict_of_le_nodup (sortByTime_sorted _) ?_
          refine ((sortByTime_perm _).map Prod.fst).nodup_iff.2 ?_
          rw [List.map_append]
          simp only [List.map_cons, List.map_nil]
          rw [List.nodup_append]
          refine ⟨keys_nodup_of_strict hs, List.nodup_singleton _, ?_⟩
          intro a ha
          simp only [List.mem_singleton]
          intro hat
          obtain ⟨q, hq, hqa⟩ := List.mem_map.1 ha
          exact hmatched q hq (by rw [hqa, hat])
        · intro p hp
          have hp2 : p ∈ cur ++ [(t, w)] := (sortByTime_perm _).mem_iff.1 hp
          rcases List.mem_append.1 hp2 with h2 | h2
          · exact hz p h2
          · rw [List.mem_singleton] at h2
            rw [h2]
            exact hw

/-- One step of the Insert branch preserves the fold invariant: the outer
values stay duplicate-free and every value's sublist stays nonempty,
strictly sorted and free of zero weights. -/
theorem applyInsertOne_J {vals : Values} {vtws : ValueTimeWeights}
    (hnd : (vals.map Prod.fst).Nodup) (hall : ∀ e ∈ vals, twOK e.2)
    (hv : twOK vtws.2) :
    ((applyInsertOne vals vtws).map Prod.fst).Nodup ∧
    ∀ e ∈ applyInsertOne vals vtws, twOK e.2 := by
  unfold applyInsertOne
  by_cases hfound : (vals.any fun e => decide (e.1 = vtws.1)) = true
  · rw [if_pos hfound]
    constructor
    · have hnd2 : ((updateFirst (fun tw => applyPairs vtws.2 tw false false)
          vtws.1 vals).map Prod.fst).Nodup := by
        rw [updateFirst_keys]
        exact hnd
      exact hnd2.sublist ((List.filter_sublist _).map Prod.fst)
    · intro e he
      have hef := List.of_mem_filter he
      have hem := List.mem_of_mem_filter he
      obtain ⟨p, hpmem, _⟩ := List.any_eq_true.1 hef
      have hne : e.2 ≠ [] := List.ne_nil_of_mem hpmem
      rcases updateFirst_mem hem with h2 | ⟨e0, he0, h2⟩
      · exact hall e h2
      · have hok := applyPairs_ok vtws.2 e0.2 false false
          (hall e0 he0).2.1 (hall e0 he0).2.2 hv.2.2
        rw [h2] at hne ⊢
        exact ⟨by simpa using hne, hok.1, hok.2⟩
  · rw [if_neg hfound]
    constructor
    · rw [List.map_append]
      simp only [List.map_cons, List.map_nil]
      rw [List.nodup_append]
      refine ⟨hnd, List.nodup_singleton _, ?_⟩
      intro a ha
      simp only [List.mem_singleton]
      intro hav
      obtain ⟨q, hq, hqa⟩ := List.mem_map.1 ha
      exact hfound (List.any_eq_true.2 ⟨q, hq, by simp [hqa, hav]⟩)
    · intro e he
      rcases List.mem_append.1 he with h2 | h2
      · exact hall e h2
      · rw [List.mem_singleton] at h2
        rw [h2]
        exact hv

/-- The whole Insert branch preserves the fold invariant. -/
theorem applyInsert_J :
    ∀ {nv vals : Values}, (vals.map Prod.fst).Nodup →
      (∀ e ∈ vals, twOK e.2) → (∀ e ∈ nv, twOK e.2) →
      ((applyInsert nv vals).map Prod.fst).Nodup ∧
      ∀ e ∈ applyInsert nv vals, twOK e.2 := by
  intro nv
  induction nv with
  | nil => intro vals hnd hall _; exact ⟨hnd, hall⟩
  | cons x xs ih =>
      intro vals hnd hall hop
      have hx : twOK x.2 := hop x (List.mem_cons_self _ _)
      have h1 := applyInsertOne_J hnd hall hx
      have h2 := ih h1.1 h1.2 (fun e he => hop e (List.mem_cons_of_mem _ he))
      simpa [applyInsert] using h2

/-- The RecedeTo branch keeps the outer values duplicate-free and makes
every surviving value's sublist nonempty, strictly sorted by time, with at
least one nonzero entry. -/
theorem applyRecedeTo_J {f : Time} {vals : Values}
    (hnd : (vals.map Prod.fst).Nodup)
    (hs : ∀ e ∈ vals, e.2.Pairwise (fun a b => a.1 < b.1)) :
    ((applyRecedeTo f vals).map Prod.fst).Nodup ∧
    ∀ e ∈ applyRecedeTo f vals, twOKweak e.2 := by
  unfold applyRecedeTo
  constructor
  · have hkeys : ((vals.map fun e => (e.1, recedeOne f e.2)).map Prod.fst) =
        vals.map Prod.fst := by
      rw [List.map_map]
      exact List.map_congr_left (fun e _ => rfl)
    have hnd2 : ((vals.map fun e =>
        (e.1, recedeOne f e.2)).map Prod.fst).Nodup := by
      rw [hkeys]
      exact hnd
    exact hnd2.sublist ((List.filter_sublist _).map Prod.fst)
  · intro e he
    have hef := List.of_mem_filter he
    have hem := List.mem_of_mem_filter he
    obtain ⟨x, hx, hxe⟩ := List.mem_map.1 hem
    obtain ⟨p, hp, hpz⟩ := List.any_eq_true.1 hef
    refine ⟨List.ne_nil_of_mem hp, ?_, ⟨p, hp, by simpa using hpz⟩⟩
    rw [← hxe]
    exact recedeOne_strict (hs x hx)

/-- The final step of merge (value sort, then Tombstone degeneration)
turns the fold invariant into the full stored-record invariant. -/
theorem finalize_full {vs : Values} (hnd : (vs.map Prod.fst).Nodup)
    (hall : ∀ e ∈ vs, twOK e.2) :
    storedRecordInvariant
      (if (sortByVal vs).isEmpty then PersistedValue.Tombstone
       else PersistedValue.Values (sortByVal vs)) := by
  by_cases he : (sortByVal vs).isEmpty
  · rw [if_pos he]
    trivial
  · rw [if_neg he]
    refine ⟨by simpa [List.isEmpty_iff] using he, ?_, ?_⟩
    · exact strict_of_le_nodup (sortByVal_sorted vs)
        (((sortByVal_perm vs).map Prod.fst).nodup_iff.2 hnd)
    · intro e hee
      exact hall e ((sortByVal_perm vs).mem_iff.1 hee)

/-- The final step of merge turns the weak fold invariant into the weak
stored-record invariant. -/
theorem finalize_weak {vs : Values} (hnd : (vs.map Prod.fst).Nodup)
    (hall : ∀ e ∈ vs, twOKweak e.2) :
    storedRecordInvariantWeak
      (if (sortByVal vs).isEmpty then PersistedValue.Tombstone
       else PersistedValue.Values (sortByVal vs)) := by
  by_cases he : (sortByVal vs).isEmpty
  · rw [if_pos he]
    trivial
  · rw [if_neg he]
    refine ⟨by simpa [List.isEmpty_iff] using he, ?_, ?_⟩
    · exact strict_of_le_nodup (sortByVal_sorted vs)
        (((sortByVal_perm vs).map Prod.fst).nodup_iff.2 hnd)
    · intro e hee
      exact hall e ((sortByVal_perm vs).mem_iff.1 hee)

/-- The full stored-record invariant implies the weak one. -/
theorem storedRecordInvariant_weak_of_full {q : PersistedValue}
    (h : storedRecordInvariant q) : storedRecordInvariantWeak q := by
  cases q with
  | Tombstone => trivial
  | Values vs =>
      obtain ⟨h1, h2, h3⟩ := h
      exact ⟨h1, h2, fun e he => (h3 e he).weak⟩

/-- Unfolding equation of merge on a Values record and an Insert op. -/
theorem merge_insert_eq (vs nv : Values) :
    merge (PersistedValue.Values vs) (MergeOp.Insert nv) =
      (if (sortByVal (applyInsert nv vs)).isEmpty then PersistedValue.Tombstone
       else PersistedValue.Values (sortByVal (applyInsert nv vs))) :=
  rfl

/-- Unfolding equation of merge on a Values record and a RecedeTo op. -/
theorem merge_recede_eq (vs : Values) (f : Time) :
    merge (PersistedValue.Values vs) (MergeOp.RecedeTo f) =
      (if (sortByVal (applyRecedeTo f vs)).isEmpty then PersistedValue.Tombstone
       else PersistedValue.Values (sortByVal (applyRecedeTo f vs))) :=
  rfl

/-- A Tombstone old record decodes as the empty value list. -/
theorem merge_tombstone_eq (op : MergeOp) :
    merge PersistedValue.Tombstone op = merge (PersistedValue.Values []) op :=
  rfl

/-- Claim C4, amended: when the old record satisfies the stored-record
invariant and an Insert payload carries nonempty, strictly time-sorted,
zero-free sublists, every PersistedValue returned by merge has its outer
list strictly sorted by value (hence unique), every value's sublist
strictly sorted by time (hence unique), every retained value keeping at
least one nonzero entry, and an empty value list degenerates to
Tombstone; after an Insert merge the full invariant holds (no zero-weight
entry at all), while a RecedeTo merge may leave zero-weight entries inside
values that keep a nonzero entry. -/
theorem merge_stored_record_invariant (p : PersistedValue) (op : MergeOp)
    (hp : storedRecordInvariant p) (hop : opWF op) :
    storedRecordInvariantWeak (merge p op) ∧
    (∀ nv, op = MergeOp.Insert nv → storedRecordInvariant (merge p op)) := by
  obtain ⟨vals, hpv, hnd, hall⟩ :
      ∃ vals, merge p op = merge (PersistedValue.Values vals) op ∧
        (vals.map Prod.fst).Nodup ∧ ∀ e ∈ vals, twOK e.2 := by
    cases p with
    | Tombstone => exact ⟨[], merge_tombstone_eq op, by simp, by simp⟩
    | Values vs =>
        obtain ⟨_, hstrict, hvals⟩ := hp
        exact ⟨vs, rfl, keys_nodup_of_strict hstrict, hvals⟩
  rw [hpv]
  cases op with
  | Insert nv =>
      have hJ := applyInsert_J hnd hall hop
      constructor
      · rw [merge_insert_eq]
        exact storedRecordInvariant_weak_of_full (finalize_full hJ.1 hJ.2)
      · intro nv2 _
        rw [merge_insert_eq]
        exact finalize_full hJ.1 hJ.2
  | RecedeTo f =>
      constructor
      · rw [merge_recede_eq]
        have hR := applyRecedeTo_J (f := f) hnd (fun e he => (hall e he).2.1)
        exact finalize_weak hR.1 hR.2
      · intro nv2 heq
        cases heq

/-- Claim C4, witness: merging a wellformed record with a wellformed
Insert op yields a record satisfying both the weak and the full
stored-record invariant. -/
theorem merge_stored_record_invariant_witness :
    storedRecordInvariantWeak
      (merge (PersistedValue.Values [(7, [(0, 1)])])
        (MergeOp.Insert [(7, [(1, 2)])])) ∧
    storedRecordInvariant
      (merge (PersistedValue.Values [(7, [(0, 1)])])
        (MergeOp.Insert [(7, [(1, 2)])])) :=
  ⟨(merge_stored_record_invariant (PersistedValue.Values [(7, [(0, 1)])])
      (MergeOp.Insert [(7, [(1, 2)])]) (by decide) (by decide)).1,
   (merge_stored_record_invariant (PersistedValue.Values [(7, [(0, 1)])])
      (MergeOp.Insert [(7, [(1, 2)])]) (by decide) (by decide)).2
      [(7, [(1, 2)])] rfl⟩

/-- Claim C4, counterexample: a wellformed old record and a RecedeTo op
for which the merge output violates the claimed invariant -- the collapse
of times 2 and 3 onto the frontier 1 produces the entry (1, 0) with zero
weight, which the code retains because its containing value still has the
nonzero entry (0, 1). -/
theorem merge_violates_stored_record_invariant :
    storedRecordInvariant
      (PersistedValue.Values [(7, [(0, 1), (2, 1), (3, -1)])]) ∧
    ¬ storedRecordInvariant
        (merge (PersistedValue.Values [(7, [(0, 1), (2, 1), (3, -1)])])
          (MergeOp.RecedeTo 1)) := by
  constructor
  · decide
  · decide

/-- A record surviving the bound filter of read_iterator_contents has its
key at or above the bound. -/
theorem readIter_bound {it : SplinterCursor} {bound : Option Key} {e : Entry}
    {b0 : Key} (h : readIter it bound = some e) (hb : bound = some b0) :
    b0 ≤ e.key := by
  subst hb
  unfold readIter at h
  cases hc : it.getCurr with
  | none => rw [hc] at h; exact absurd h (by simp)
  | some e2 =>
      rw [hc] at h
      by_cases hk : e2.key < b0
      · simp [hk] at h
      · simp only [hk, if_false] at h
        cases h
        exact le_of_not_lt hk

/-- A group materialized by build_cursor_contents has its key at or above
the bound, since its key is the key of the first record read through the
bound filter. -/
theorem buildCC_bound {dir : Direction} {it : SplinterCursor}
    {bound : Option Key} {cc : CursorContents} {b0 : Key}
    (h : (buildCC dir it bound).2 = some cc) (hb : bound = some b0) :
    b0 ≤ cc.key := by
  unfold buildCC at h
  cases hr : readIter it bound with
  | none => rw [hr] at h; exact absurd h (by simp)
  | some start =>
      rw [hr] at h
      simp only [Option.some.injEq] at h
      have hk : cc.key = start.key := by rw [← h]
      rw [hk]
      exact readIter_bound hr hb

/-- Shape of step_key: the new group always comes from
build_cursor_contents under the cursor's own bound, and the bound field
is untouched. -/
theorem step_key_shape (c : PCursor) :
    ∃ it2, c.step_key =
      { c with iter := (buildCC Direction.Forward it2 c.bound).1,
               cur := (buildCC Direction.Forward it2 c.bound).2 } := by
  unfold PCursor.step_key
  exact ⟨_, rfl⟩

/-- Shape of step_key_reverse: as step_key, building backward. -/
theorem step_key_reverse_shape (c : PCursor) :
    ∃ it2, c.step_key_reverse =
      { c with iter := (buildCC Direction.Backward it2 c.bound).1,
               cur := (buildCC Direction.Backward it2 c.bound).2 } := by
  unfold PCursor.step_key_reverse
  exact ⟨_, rfl⟩

/-- Shape of a successful step_val: either the new group comes from
build_cursor_contents under the cursor's own bound, or the old group is
kept with its value invalidated, its key unchanged. -/
theorem step_val_shape {c c' : PCursor} (h : c.step_val = Except.ok c') :
    (∃ it2, c' =
      { c with iter := (buildCC Direction.Forward it2 c.bound).1,
               cur := (buildCC Direction.Forward it2 c.bound).2 }) ∨
    (∃ cc it2, c.cur = some cc ∧
      c' = { c with iter := it2, cur := some { cc with value := none } }) := by
  unfold PCursor.step_val at h
  cases hcur : c.cur with
  | none =>
      rw [hcur] at h
      cases hrr : reReadF c with
      | mk it1 oe =>
          rw [hrr] at h
          simp only [Except.ok.injEq] at h
          left
          exact ⟨it1, h.symm⟩
  | some cc =>
      rw [hcur] at h
      cases hrr : reReadF c with
      | mk it1 oe =>
          rw [hrr] at h
          cases oe with
          | none => exact absurd h (by simp)
          | some cv =>
              dsimp only at h
              cases hsk : skipValLoopF (c.iter.entries.length + 1) cc.key
                  cc.value it1 c.bound cv with
              | error e => rw [hsk] at h; exact absurd h (by simp)
              | ok w =>
                  rw [hsk] at h
                  dsimp only at h
                  by_cases hkey : cc.key = w.2.key
                  · rw [if_pos hkey] at h
                    simp only [Except.ok.injEq] at h
                    left
                    exact ⟨w.1, h.symm⟩
                  · rw [if_neg hkey] at h
                    simp only [Except.ok.injEq] at h
                    right
                    exact ⟨cc, w.1, rfl, h.symm⟩

/-- Shape of a successful step_val_reverse: as step_val, building
backward. -/
theorem step_val_reverse_shape {c c' : PCursor}
    (h : c.step_val_reverse = Except.ok c') :
    (∃ it2, c' =
      { c with iter := (buildCC Direction.Backward it2 c.bound).1,
               cur := (buildCC Direction.Backward it2 c.bound).2 }) ∨
    (∃ cc it2, c.cur = some cc ∧
      c' = { c with iter := it2, cur := some { cc with value := none } }) := by
  unfold PCursor.step_val_reverse at h
  cases hcur : c.cur with
  | none =>
      rw [hcur] at h
      cases hrr : reReadB c with
      | mk it1 oe =>
          rw [hrr] at h
          simp only [Except.ok.injEq] at h
          left
          exact ⟨it1, h.symm⟩
  | some cc =>
      rw [hcur] at h
      cases hrr : reReadB c with
      | mk it1 oe =>
          rw [hrr] at h
          cases oe with
          | none => exact absurd h (by simp)
          | some cv =>
              dsimp only at h
              cases hsk : skipValLoopB (c.iter.entries.length + 1) cc.key
                  cc.value it1 c.bound cv with
              | error e => rw [hsk] at h; exact absurd h (by simp)
              | ok w =>
                  rw [hsk] at h
                  dsimp only at h
                  by_cases hkey : cc.key = w.2.key
                  · rw [if_pos hkey] at h
                    simp only [Except.ok.injEq] at h
                    left
                    exact ⟨w.1, h.symm⟩
                  · rw [if_neg hkey] at h
                    simp only [Except.ok.injEq] at h
                    right
                    exact ⟨cc, w.1, rfl, h.symm⟩

/-- Every successful cursor operation preserves the bound invariant and
leaves the bound itself unchanged. -/
theorem applyOp_preserves {c c' : PCursor} {op : CursorOp}
    (h : applyOp c op = Except.ok c') (hc : curAboveBound c) :
    curAboveBound c' ∧ c'.bound = c.bound := by
  cases op with
  | stepKey =>
      simp only [applyOp, Except.ok.injEq] at h
      obtain ⟨it2, hshape⟩ := step_key_shape c
      subst h
      rw [hshape]
      exact ⟨fun cc hcc b0 hb => buildCC_bound hcc hb, rfl⟩
  | stepKeyReverse =>
      simp only [applyOp, Except.ok.injEq] at h
      obtain ⟨it2, hshape⟩ := step_key_reverse_shape c
      subst h
      rw [hshape]
      exact ⟨fun cc hcc b0 hb => buildCC_bound hcc hb, rfl⟩
  | stepVal =>
      simp only [applyOp] at h
      rcases step_val_shape h with ⟨it2, hshape⟩ | ⟨cc, it2, hcur, hshape⟩
      · rw [hshape]
        exact ⟨fun cc hcc b0 hb => buildCC_bound hcc hb, rfl⟩
      · rw [hshape]
        refine ⟨fun cc2 hcc2 b0 hb => ?_, rfl⟩
        cases hcc2
        exact hc cc hcur b0 hb
  | stepValReverse =>
      simp only [applyOp] at h
      rcases step_val_reverse_shape h with ⟨it2, hshape⟩ | ⟨cc, it2, hcur, hshape⟩
      · rw [hshape]
        exact ⟨fun cc hcc b0 hb => buildCC_bound hcc hb, rfl⟩
      · rw [hshape]
        refine ⟨fun cc2 hcc2 b0 hb => ?_, rfl⟩
        cases hcc2
        exact hc cc hcur b0 hb
  | seekKey k => exact absurd h (by simp [applyOp])
  | seekKeyReverse k => exact absurd h (by simp [applyOp])
  | seekVal v => exact absurd h (by simp [applyOp])
  | seekValReverse v => exact absurd h (by simp [applyOp])
  | rewindKeys => exact absurd h (by simp [applyOp])
  | fastForwardKeys => exact absurd h (by simp [applyOp])
  | rewindVals => exact absurd h (by simp [applyOp])
  | fastForwardVals => exact absurd h (by simp [applyOp])

/-- Any successful run of cursor operations preserves the bound invariant
and the bound itself. -/
theorem runOps_preserves {ops : List CursorOp} {c c' : PCursor}
    (h : runOps ops c = Except.ok c') (hc : curAboveBound c) :
    curAboveBound c' ∧ c'.bound = c.bound := by
  induction ops generalizing c with
  | nil =>
      simp only [runOps, Except.ok.injEq] at h
      subst h
      exact ⟨hc, rfl⟩
  | cons op rest ih =>
      simp only [runOps] at h
      cases happ : applyOp c op with
      | error e =>
          rw [happ] at h
          exact absurd h (by simp)
      | ok c1 =>
          rw [happ] at h
          obtain ⟨h1, hb1⟩ := applyOp_preserves happ hc
          obtain ⟨h2, hb2⟩ := ih h h1
          exact ⟨h2, hb2.trans hb1⟩

/-- A fresh cursor satisfies the bound invariant: its first group is
materialized through the bound filter. -/
theorem new_curAboveBound (store : Store) (bound : Option Key) :
    curAboveBound (PCursor.new store bound) := by
  intro cc hcc b0 hb
  simp only [PCursor.new] at hcc hb
  exact buildCC_bound hcc hb

/-- The bound field of a fresh cursor is the bound it was given. -/
theorem new_bound (store : Store) (bound : Option Key) :
    (PCursor.new store bound).bound = bound :=
  rfl

/-- truncate_keys_below installs a bound at least the requested one. -/
theorem truncate_keys_below_bound (tr : PTrace) (b : Key) :
    ∃ b1, (tr.truncate_keys_below b).lower_key_bound = some b1 ∧ b ≤ b1 := by
  unfold PTrace.truncate_keys_below
  cases tr.lower_key_bound with
  | none => exact ⟨b, rfl, le_refl b⟩
  | some old => exact ⟨max old b, rfl, le_max_right old b⟩

/-- Claim C8: after truncate_keys_below(b), any cursor obtained from the
trace, after any sequence of cursor operations that does not panic, has no
materialized group with a key strictly below b -- so key() can never
return such a key -- even though records with keys below b may still be
present in the partition (truncation only raises the bound and deletes
nothing). -/
theorem truncated_cursor_never_below (tr : PTrace) (b : Key)
    (ops : List CursorOp) (c : PCursor)
    (h : runOps ops (PTrace.cursor (tr.truncate_keys_below b)) =
      Except.ok c) :
    exposesKeyBelow b c = false := by
  obtain ⟨b1, hb1, hle⟩ := truncate_keys_below_bound tr b
  have h0 : curAboveBound (PTrace.cursor (tr.truncate_keys_below b)) := by
    unfold PTrace.cursor
    exact new_curAboveBound _ _
  obtain ⟨hc, hbeq⟩ := runOps_preserves h h0
  have hcb : c.bound = some b1 := by
    rw [hbeq]
    unfold PTrace.cursor
    rw [new_bound]
    exact hb1
  unfold exposesKeyBelow
  cases hcc : c.cur with
  | none => rfl
  | some cc =>
      have hk := hc cc hcc b1 hcb
      simp only [decide_eq_false_iff_not, not_lt]
      exact le_trans hle hk

/-- Claim C8, witness: a trace holding a record with key 1 and one with
key 3, truncated below 2; the raw record with key 1 still exists in the
partition, yet the fresh cursor materializes the group of key 3 and
exposes nothing below 2. -/
theorem truncated_cursor_never_below_witness :
    exposesKeyBelow 2
      (PTrace.cursor
        (PTrace.truncate_keys_below
          { PTrace.new with
            store := [{ key := 1, value := 5, timestamp := 0, weight := 1 },
                      { key := 3, value := 4, timestamp := 0, weight := 2 }] }
          2)) = false :=
  truncated_cursor_never_below
    { PTrace.new with
      store := [{ key := 1, value := 5, timestamp := 0, weight := 1 },
                { key := 3, value := 4, timestamp := 0, weight := 2 }] }
    2 [] _ rfl

/-- Claim C7, witness: inserting the non-empty batch cB1 into the fresh
trace updates the state as the theorem describes. -/
theorem insert_spec_witness :
    ∃ tr', PTrace.new.insert cB1 = some tr' ∧
      tr'.dirty = true ∧
      tr'.lower = acMeet PTrace.new.lower cB1.lower ∧
      tr'.upper = acJoin PTrace.new.upper cB1.upper ∧
      tr'.store = (add_batch_to_cf PTrace.new cB1).store ∧
      tr'.approximate_len =
        PTrace.new.approximate_len +
          (cB1.data.map (fun kv => kv.2.length)).sum ∧
      tr'.lower_key_bound = PTrace.new.lower_key_bound ∧
      tr'.lower_val_bound = PTrace.new.lower_val_bound :=
  (insert_spec PTrace.new cB1).2.2 (by decide) (by decide)

end SdbPersistent
